import Mathlib

/-!
Shallow embedding of the streaming audio-to-spectrum core of the
leafpipe repository: the chunked buffer manager with rate-aware interval
extraction in src/vis.rs and the adaptive min/max normalizer in
src/slidingwindow.rs.

Embedding conventions:
* f32 values are modelled as exact rationals. Where an operation of the
  source can produce a non-finite f32 (the rate bookkeeping of
  take_next divides by an elapsed-time ratio that can be zero), the
  value is modelled by the type Flt below, which represents NaN and the
  infinities explicitly with IEEE division semantics (signed zero is
  not modelled; it is never distinguished by the source).
* Duration values are modelled as exact rationals counting seconds.
  Duration.as_millis truncates to whole milliseconds, so the check
  "as_millis() < 1" becomes "remaining < 1/1000".
* Fallible operations return Option; none models a Rust panic
  (an out-of-range Duration::from_secs_f32, an out-of-range slice
  index in fft_interval, or the unwrap of the min/max of an empty
  history in SlidingWindow). The f32 computation of the transform
  exponent is modelled faithfully: the length is rounded to f32
  (natCastF32) and its log2 is the correctly rounded f32 value
  (f32round of the real log2).
* The FFT plan cache of BufferManager is a memo table keyed by the
  transform size whose entries are deterministic functions of the key
  (transform plan, Hamming window, sqrt scale); it is modelled by
  recomputing those functions at each call, which is observationally
  identical.
* The transcendental parts (Hamming window coefficients, the forward
  FFT of the rustfft crate, the piecewise-linear sampling of the
  enterpolation crate) do not exist as code under src/; they are
  modelled over the reals, following the description of the spec.
-/

/-- Model of an f32 value that may be non-finite: `fin q` is a finite
value (exact rational), `nan` is an IEEE NaN, `inf` and `ninf` the two
infinities. Signed zeros are collapsed to `fin 0`. -/
inductive Flt where
  | nan : Flt
  | inf : Flt
  | ninf : Flt
  | fin : ℚ → Flt
deriving DecidableEq

/-- IEEE f32 addition on the non-finite model (exact on finite values). -/
def fadd : Flt → Flt → Flt
  | .nan, _ => .nan
  | _, .nan => .nan
  | .inf, .ninf => .nan
  | .ninf, .inf => .nan
  | .inf, _ => .inf
  | _, .inf => .inf
  | .ninf, _ => .ninf
  | _, .ninf => .ninf
  | .fin a, .fin b => .fin (a + b)

/-- IEEE f32 multiplication on the non-finite model (exact on finite values). -/
def fmul : Flt → Flt → Flt
  | .nan, _ => .nan
  | _, .nan => .nan
  | .inf, .inf => .inf
  | .inf, .ninf => .ninf
  | .ninf, .inf => .ninf
  | .ninf, .ninf => .inf
  | .inf, .fin b => if b = 0 then .nan else if 0 < b then .inf else .ninf
  | .fin a, .inf => if a = 0 then .nan else if 0 < a then .inf else .ninf
  | .ninf, .fin b => if b = 0 then .nan else if 0 < b then .ninf else .inf
  | .fin a, .ninf => if a = 0 then .nan else if 0 < a then .ninf else .inf
  | .fin a, .fin b => .fin (a * b)

/-- IEEE f32 division on the non-finite model: 0/0 is NaN, x/0 for
nonzero finite x is a signed infinity, x/inf is zero (exact on finite
values; signed zero collapsed). -/
def fdiv : Flt → Flt → Flt
  | .nan, _ => .nan
  | _, .nan => .nan
  | .inf, .inf => .nan
  | .inf, .ninf => .nan
  | .ninf, .inf => .nan
  | .ninf, .ninf => .nan
  | .inf, .fin b => if 0 ≤ b then .inf else .ninf
  | .ninf, .fin b => if 0 ≤ b then .ninf else .inf
  | .fin _, .inf => .fin 0
  | .fin _, .ninf => .fin 0
  | .fin a, .fin b =>
    if b = 0 then (if a = 0 then .nan else if 0 < a then .inf else .ninf)
    else .fin (a / b)

/-- Rust saturating cast from f32 to usize: NaN and negatives go to 0,
positive infinity saturates; the usize width is taken as 64 bits. -/
def USIZE_MAX : ℕ := 2 ^ 64 - 1

/-- Cast of an f32 to usize with Rust `as` semantics (saturating). -/
def fltToUsize : Flt → ℕ
  | .nan => 0
  | .ninf => 0
  | .inf => USIZE_MAX
  | .fin q => min USIZE_MAX (⌊q⌋).toNat

/-- vis.rs constant BUFFER_TARGET: backlog cap of the chunk queue. -/
def BUFFER_TARGET : ℕ := 3

/-- vis.rs constant CEILING_FREQ. -/
def CEILING_FREQ : ℚ := 15000

/-- vis.rs constant FLOOR_FREQ. -/
def FLOOR_FREQ : ℚ := 100

/-- vis.rs constant SCALE (the output gain). -/
noncomputable def SCALE : ℝ := 8

/-- vis.rs constant POWER_FREQ, the base of the logarithmic knots
(the f32 literal 1.02 is modelled as the exact rational 51/50). -/
def POWER_FREQ : ℚ := 1.02

/-- vis.rs struct AudioBuffer: an owned chunk of samples with a read
cursor and the sample rate it was captured at. -/
structure AudioBuffer where
  data : List ℚ
  position : ℕ
  rate : ℚ
deriving DecidableEq

/-- AudioBuffer::read: take up to floor(duration * rate) samples from
the cursor, advance the cursor, and report the elapsed time
values_to_read / rate. The result is none when
Duration::from_secs_f32 would panic, that is when the elapsed seconds
value is NaN or negative (rate = 0 gives 0/0 = NaN). The subtraction
data.len() - position is the source expression; position ≤ data.length
holds at every reachable state. -/
def AudioBuffer.read (b : AudioBuffer) (duration : ℚ) :
    Option (List ℚ × ℚ × AudioBuffer) :=
  let desired_read_count := (⌊duration * b.rate⌋).toNat
  let max_read_count := b.data.length - b.position
  let values_to_read := min max_read_count desired_read_count
  let elapsed := (values_to_read : ℚ) / b.rate
  if b.rate = 0 ∨ elapsed < 0 then none
  else
    some ((b.data.drop b.position).take values_to_read, elapsed,
      { b with position := b.position + values_to_read })

/-- vis.rs struct BufferManager. The FFT plan cache field is omitted:
its entries are deterministic functions of the key and are modelled by
recomputation inside fft_interval. -/
structure BufferManager where
  buffers : List AudioBuffer
deriving DecidableEq

/-- vis.rs struct BufferSlice: the extracted samples and blended rate. -/
structure BufferSlice where
  values : List ℚ
  rate : Flt
deriving DecidableEq

/-- The loop of BufferManager::take_next: walk the queue from the
front, reading from each chunk, accumulating samples and the
rate contribution buffer.rate * elapsed / interval, subtracting the
elapsed time (saturating), and breaking once the remaining interval
drops below one millisecond. A chunk the loop breaks inside of stays
(with its advanced cursor); chunks the loop moves past are drained.
Returns (values, rate accumulator, remaining interval, queue left). -/
def takeNextGo (interval : ℚ) :
    List AudioBuffer → ℚ → List ℚ → Flt →
    Option (List ℚ × Flt × ℚ × List AudioBuffer)
  | [], remaining, vals, rate => some (vals, rate, remaining, [])
  | b :: rest, remaining, vals, rate =>
    match b.read remaining with
    | none => none
    | some (slice, elapsed, b2) =>
      let rate2 := fadd rate (fdiv (fmul (Flt.fin b.rate) (Flt.fin elapsed)) (Flt.fin interval))
      let vals2 := vals ++ slice
      let remaining2 := max (remaining - elapsed) 0
      if remaining2 < 1 / 1000 then
        some (vals2, rate2, remaining2, b2 :: rest)
      else
        takeNextGo interval rest remaining2 vals2 rate2

/-- BufferManager::take_next: extract samples covering the requested
interval and a blended effective rate; afterwards the accumulated rate
is rescaled by the fraction of the interval actually covered,
rate / (total_elapsed / interval), which is NaN when nothing was
consumed (0.0 / 0.0). -/
def BufferManager.take_next (bm : BufferManager) (interval : ℚ) :
    Option (BufferSlice × BufferManager) :=
  match takeNextGo interval bm.buffers interval [] (Flt.fin 0) with
  | none => none
  | some (vals, rate, remaining, bufs) =>
    let total_elapsed := interval - remaining
    some (⟨vals, fdiv rate (fdiv (Flt.fin total_elapsed) (Flt.fin interval))⟩, ⟨bufs⟩)

/-- BufferManager::fill_buffer: silently drop the chunk when the queue
already holds BUFFER_TARGET chunks, otherwise append it with a fresh
cursor. The u32 sample rate is cast to f32 (exact for realistic rates). -/
def BufferManager.fill_buffer (bm : BufferManager) (buffer : List ℚ) (rate : ℕ) :
    BufferManager :=
  if BUFFER_TARGET ≤ bm.buffers.length then bm
  else ⟨bm.buffers ++ [⟨buffer, 0, (rate : ℚ)⟩]⟩

/-- vis.rs local function power_range inside fft_interval: the knot
sequence [0] followed by 1 - 1/base^p for p = 0 .. count-2 (so the
list has count entries and its second entry duplicates 0). -/
def power_range (base : ℚ) (count : ℕ) : List ℚ :=
  0 :: (List.range (count - 1)).map (fun power => 1 - 1 / base ^ power)

/-- Modelled from the spec: the enterpolation curve is sampled at
out_size evenly spaced points of the unit interval. -/
def samplePoints (out_size : ℕ) : List ℚ :=
  (List.range out_size).map fun j => (j : ℚ) / (out_size : ℚ)

/-- Modelled from the spec: the Hamming window of the apodize crate,
0.54 - 0.46 cos(2 pi n / (size - 1)); the crate is not part of src. -/
noncomputable def hamming (size : ℕ) (n : ℕ) : ℝ :=
  0.54 - 0.46 * Real.cos (2 * Real.pi * n / ((size - 1 : ℕ) : ℝ))

/-- Modelled from the spec: the forward FFT plan of the rustfft crate
computes the discrete Fourier transform; the crate is not part of src. -/
noncomputable def dft (l : List ℂ) : List ℂ :=
  (List.range l.length).map fun k =>
    ∑ n ∈ Finset.range l.length,
      l.getD n 0 * Complex.exp (-(2 * Real.pi * Complex.I * k * n) / (l.length : ℂ))

/-- Modelled from the spec: piecewise-linear interpolation over the
given knots and complex elements of the enterpolation crate, evaluated
at parameter t (the crate is not part of src; equal adjacent knots get
weight 0). -/
noncomputable def linearSample (knots : List ℚ) (elems : List ℂ) (t : ℚ) : ℂ :=
  let i := min (knots.length - 2) ((knots.filter (fun k => decide (k ≤ t))).length - 1)
  let k0 := knots.getD i 0
  let k1 := knots.getD (i + 1) 0
  let w : ℚ := if k1 = k0 then 0 else (t - k0) / (k1 - k0)
  (1 - (w : ℂ)) * elems.getD i 0 + (w : ℂ) * elems.getD (i + 1) 0

/-- The per-sample output map of fft_interval: magnitude
sqrt(re^2 + im^2), normalized by the cached scale, log-compressed and
multiplied by the gain SCALE. -/
noncomputable def intensity (scaling_factor : ℝ) (z : ℂ) : ℝ :=
  let power := Real.sqrt (z.re * z.re + z.im * z.im)
  let value := power / scaling_factor
  let log_scale := Real.logb 10 (1 + value)
  log_scale * SCALE

/-- Conversion of a usize to f32 with IEEE round-to-nearest,
ties-to-even semantics: values up to 2^24 are exact, larger values are
rounded to a 24-bit significand on the grid 2^(log2 n - 23). Overflow
to infinity starts at 2^128 and is not modelled (lengths are below
2^64). -/
def natCastF32 (n : ℕ) : ℚ :=
  if n = 0 then 0
  else
    let e := Nat.log2 n
    if e ≤ 23 then (n : ℚ)
    else
      let s := e - 23
      let q := n / 2 ^ s
      let r := n % 2 ^ s
      let m := if 2 * r < 2 ^ s then q
        else if 2 ^ s < 2 * r then q + 1
        else (if q % 2 = 0 then q else q + 1)
      (m : ℚ) * 2 ^ s

/-- Rounding of a real number to the f32 grid: the significand grid
step below the value is 2^(floor(log2 |x|) - 23), and the value is
rounded to the nearest multiple (Mathlib round, ties upward; it is
applied below only to f32::log2 outputs, where a tie would force
log2 of an integer to be a dyadic non-integer, which is impossible, so
the tie rule never fires). Zero maps to zero; the inputs used lie in
the normal range, so subnormals and overflow are not modelled. -/
noncomputable def f32round (x : ℝ) : ℝ :=
  if x = 0 then 0
  else (round (x / (2 : ℝ) ^ (⌊Real.logb 2 |x|⌋ - 23)) : ℤ) * (2 : ℝ) ^ (⌊Real.logb 2 |x|⌋ - 23)

/-- BufferManager::fft_interval: extract a slice, truncate to a power
of two, window and transform it, select the bin range between
FLOOR_FREQ and CEILING_FREQ, and sample the log-knot linear
interpolant at out_size points. The exponent is the source expression
f32::log2(values.len() as f32).floor(): the length is first rounded to
f32 (natCastF32) and the logarithm is computed in f32 (modelled as the
correctly rounded value f32round of the real log2; libm guarantees at
most 1 ulp error and at every length the theorems below touch the
value is more than 1 ulp from the next representable, so any
conforming libm agrees). When the resulting size 2^power exceeds the
sample count — which happens for lengths just under a power of two
from 2^21-1 on, where the rounding lands on the exponent itself — the
source slice values[0..size] is out of range and panics (none). The
outer Option models panic; the inner Option is the absent result for
insufficient data (fewer than 2 samples or fewer than 2 bins). -/
noncomputable def BufferManager.fft_interval (bm : BufferManager) (interval : ℚ)
    (out_size : ℕ) : Option (Option (List ℝ) × BufferManager) :=
  match bm.take_next interval with
  | none => none
  | some (slice, bm2) =>
    if slice.values.length < 2 then some (none, bm2)
    else
      let power_of_2 := (⌊f32round (Real.logb 2 ((natCastF32 slice.values.length : ℚ) : ℝ))⌋).toNat
      let size : ℕ := 2 ^ power_of_2
      if slice.values.length < size then none
      else
      let scaling_factor : ℝ := Real.sqrt (size : ℝ)
      let truncated_data :=
        dft (List.zipWith (fun v n => (⟨v * hamming size n, 0⟩ : ℂ))
          ((slice.values.take size).map (fun v => (v : ℝ))) (List.range size))
      let max_freq_frac := fdiv (Flt.fin CEILING_FREQ) slice.rate
      let min_freq_frac := fdiv (Flt.fin FLOOR_FREQ) slice.rate
      let max_index := min size (fltToUsize (fmul (Flt.fin (size : ℚ)) max_freq_frac))
      let min_index := fltToUsize (fmul (Flt.fin (size : ℚ)) min_freq_frac)
      let count := max_index - min_index
      if count < 2 then some (none, bm2)
      else
        let elems := (truncated_data.drop min_index).take count
        let knots := power_range POWER_FREQ count
        some (some ((samplePoints out_size).map fun t =>
          intensity scaling_factor (linearSample knots elems t)), bm2)

/-- slidingwindow.rs struct SlidingWindow: bounded history of accepted
intensities with running extrema and the counter driving the periodic
rescan. -/
structure SlidingWindow where
  recorded_intensites : List ℚ
  min : ℚ
  max : ℚ
  updates : ℕ
  limit : ℕ
deriving DecidableEq

/-- SlidingWindow::new: empty history with sentinel extrema. -/
def SlidingWindow.new (limit : ℕ) : SlidingWindow :=
  { updates := 0, recorded_intensites := [], min := 100, max := 0, limit := limit }

/-- SlidingWindow::submit_new: reject values below the noise floor 0.1
(the f32 literal is modelled as the exact rational 1/10); otherwise
push the value (Vec::push appends at the back) and, when the history
exceeds the limit, Vec::pop removes the back element, which is the
value just pushed. Update the running extrema, and when the update
counter exceeds the limit recompute the extrema by a full scan of the
history, whose unwrap on an empty history is a panic (none). The
iterator max_by/min_by with total_cmp agree with foldl Max.max and
foldl Min.min on rationals. Returns the new state with (min, max). -/
def SlidingWindow.submit_new (s : SlidingWindow) (value : ℚ) :
    Option (SlidingWindow × ℚ × ℚ) :=
  if value < 1 / 10 then
    some (s, s.min, s.max)
  else
    let updates := s.updates + 1
    let pushed := s.recorded_intensites ++ [value]
    let kept := if s.limit < pushed.length then pushed.dropLast else pushed
    let max1 := if s.max < value then value else s.max
    let min1 := if value < s.min then value else s.min
    if s.limit < updates then
      match kept with
      | [] => none
      | a :: rest =>
        some (⟨a :: rest, List.foldl Min.min a rest, List.foldl Max.max a rest, 0, s.limit⟩,
          List.foldl Min.min a rest, List.foldl Max.max a rest)
    else
      some (⟨kept, min1, max1, updates, s.limit⟩, min1, max1)

/-- One call into the core: ingestion, extraction, spectrum, or
normalizer submission. -/
inductive SysOp where
  | fill (buffer : List ℚ) (rate : ℕ)
  | take (interval : ℚ)
  | fft (interval : ℚ) (out_size : ℕ)
  | submit (value : ℚ)

/-- The combined state the operations act on: the shared BufferManager
and one SlidingWindow instance. -/
structure SysState where
  bm : BufferManager
  window : SlidingWindow
deriving DecidableEq

/-- Execute one call; none models a panic inside the call. -/
noncomputable def stepOp (s : SysState) : SysOp → Option SysState
  | .fill buf r => some ⟨s.bm.fill_buffer buf r, s.window⟩
  | .take d => (s.bm.take_next d).map fun x => ⟨x.2, s.window⟩
  | .fft d n => (s.bm.fft_interval d n).map fun x => ⟨x.2, s.window⟩
  | .submit v => (s.window.submit_new v).map fun x => ⟨s.bm, x.1⟩

/-- Execute a sequence of calls, stopping at the first panic. -/
noncomputable def runOps (s : SysState) : List SysOp → Option SysState
  | [] => some s
  | op :: ops => (stepOp s op).bind fun s2 => runOps s2 ops

/-- Validity of the configuration data carried by a call, matching the
valid (non-negative, non-zero) configuration of the spec: sample rates
are nonzero and requested durations non-negative (Rust Duration values
cannot be negative). -/
def SysOp.valid : SysOp → Prop
  | .fill _ r => 0 < r
  | .take d => 0 ≤ d
  | .fft d _ => 0 ≤ d
  | .submit _ => True

instance : DecidablePred SysOp.valid := fun op =>
  match op with
  | .fill _ r => inferInstanceAs (Decidable (0 < r))
  | .take d => inferInstanceAs (Decidable (0 ≤ d))
  | .fft d _ => inferInstanceAs (Decidable (0 ≤ d))
  | .submit _ => inferInstanceAs (Decidable True)

/-- The state properties that make every call panic-free: every queued
chunk carries a nonzero (positive) rate and the normalizer capacity is
nonzero. -/
def SysInv (s : SysState) : Prop :=
  (∀ b ∈ s.bm.buffers, 0 < b.rate) ∧ 1 ≤ s.window.limit

/-- Normalizer call sequence: feed the values one by one, stopping at
the first panic. -/
def runWindow (s : SlidingWindow) : List ℚ → Option SlidingWindow
  | [] => some s
  | v :: vs => (s.submit_new v).bind fun r => runWindow r.1 vs

/-- A concrete one-chunk queue used to exercise fft_interval: eight
samples at 48 kHz, enough for a transform of size 8 and a 2-bin range. -/
def bm8 : BufferManager := ⟨[⟨List.replicate 8 0, 0, 48000⟩]⟩

/-- The single intensity value fft_interval produces on bm8 with one
output bucket (the payload written out explicitly, with the sample
list cast to the reals elementwise). -/
noncomputable def c10val : ℝ :=
  intensity (Real.sqrt 8)
    (linearSample (power_range POWER_FREQ 2)
      (List.take 2 (dft (List.zipWith
        (fun (v : ℝ) n => (⟨v * hamming 8 n, 0⟩ : ℂ))
        ((List.replicate 8 (0 : ℚ)).map (fun a => (a : ℝ))) (List.range 8)))) 0)

/-- Folding min over a list never goes above the initial value. -/
theorem foldl_min_le_init (l : List ℚ) : ∀ a : ℚ, List.foldl Min.min a l ≤ a := by
  induction l with
  | nil => intro a; exact le_refl a
  | cons x xs ih =>
    intro a
    calc List.foldl Min.min (Min.min a x) xs ≤ Min.min a x := ih (Min.min a x)
    _ ≤ a := min_le_left a x

/-- Folding max over a list never goes below the initial value. -/
theorem init_le_foldl_max (l : List ℚ) : ∀ a : ℚ, a ≤ List.foldl Max.max a l := by
  induction l with
  | nil => intro a; exact le_refl a
  | cons x xs ih =>
    intro a
    calc a ≤ Max.max a x := le_max_left a x
    _ ≤ List.foldl Max.max (Max.max a x) xs := ih (Max.max a x)

/-- On the empty queue take_next consumes nothing, so the final
rescaling divides the zero rate accumulator by a zero coverage
fraction: the result is the empty slice with a NaN rate. -/
theorem take_next_nil (d : ℚ) :
    BufferManager.take_next ⟨[]⟩ d = some (⟨[], Flt.nan⟩, ⟨[]⟩) := by
  unfold BufferManager.take_next
  simp only [takeNextGo]
  have hd : d - d = 0 := sub_self d
  rw [hd]
  rcases eq_or_ne d 0 with h | h
  · subst h; norm_num [fdiv]
  · norm_num [fdiv, h]

/-- C1 counterexample: on the empty queue the blended rate the code
returns is NaN (from the rescaling division 0.0 / 0.0), not the finite
value 0 the claim states. -/
theorem c1_cex :
    BufferManager.take_next ⟨[]⟩ (1 / 10) = some (⟨[], Flt.nan⟩, ⟨[]⟩) ∧
    Flt.nan ≠ Flt.fin 0 := by
  refine ⟨take_next_nil (1 / 10), ?_⟩
  decide

/-- C1 amended: take_next on the empty queue returns the empty sample
sequence together with a NaN rate, and fft_interval on the empty queue
returns the absent (inner none) result, for every requested duration
and bucket count. -/
theorem c1_amended (d : ℚ) (n : ℕ) :
    BufferManager.take_next ⟨[]⟩ d = some (⟨[], Flt.nan⟩, ⟨[]⟩) ∧
    BufferManager.fft_interval ⟨[]⟩ d n = some (none, ⟨[]⟩) := by
  refine ⟨take_next_nil d, ?_⟩
  unfold BufferManager.fft_interval
  rw [take_next_nil d]
  norm_num

/-- C2: the code keeps the oldest history entries and drops the value
it just pushed once the history is at capacity (Vec::pop removes the
back, which is exactly the element push appended): from history [5] at
capacity 1, submitting 1 leaves the history [5], not [1]. -/
theorem c2_code_bug :
    SlidingWindow.submit_new ⟨[5], 5, 5, 1, 1⟩ 1 = some (⟨[5], 5, 5, 0, 1⟩, 5, 5) ∧
    (⟨[5], 5, 5, 0, 1⟩ : SlidingWindow).recorded_intensites ≠ [1] := by
  constructor
  · norm_num [SlidingWindow.submit_new]
  · norm_num

/-- C3 counterexample: one submit_new call whose value is below the
noise floor leaves the sentinel state, where min = 100 exceeds
max = 0, violating the claimed invariant after one call. -/
theorem c3_cex :
    runWindow (SlidingWindow.new 64) [0] = some (SlidingWindow.new 64) ∧
    ¬ (SlidingWindow.new 64).min ≤ (SlidingWindow.new 64).max := by
  constructor
  · norm_num [runWindow, SlidingWindow.submit_new, SlidingWindow.new]
  · norm_num [SlidingWindow.new]

/-- C6 counterexample: with capacity L = 2, after exactly L accepted
submissions the update counter holds 2 and has not been reset — the
rescan fires on the (L+1)-th accepted update, not after every L. -/
theorem c6_cex :
    runWindow (SlidingWindow.new 2) [1, 1] = some ⟨[1, 1], 1, 1, 2, 2⟩ ∧
    (⟨[1, 1], 1, 1, 2, 2⟩ : SlidingWindow).updates ≠ 0 := by
  constructor
  · norm_num [runWindow, SlidingWindow.submit_new, SlidingWindow.new]
  · norm_num

/-- C7 counterexample: with count = 3 the knot list the code builds is
[0, 0, 1 - 1/base]; the knot at index 1 is 0, not the 1 - 1/base^1 the
claim states. -/
theorem c7_cex :
    power_range POWER_FREQ 3 = [0, 0, 1 - 1 / POWER_FREQ ^ 1] ∧
    (power_range POWER_FREQ 3).getD 1 0 ≠ 1 - 1 / POWER_FREQ ^ 1 := by
  constructor
  · norm_num [power_range, POWER_FREQ, List.range_succ]
  · norm_num [power_range, POWER_FREQ, List.range_succ, List.getD_cons_succ,
      List.getD_cons_zero]

/-- C9 counterexample: pushing a zero-length sample sequence into a
queue below the backlog target does enqueue an (empty) chunk; the
queue length grows from 0 to 1. -/
theorem c9_cex :
    BufferManager.fill_buffer ⟨[]⟩ [] 48000 = ⟨[⟨[], 0, 48000⟩]⟩ ∧
    (BufferManager.fill_buffer ⟨[]⟩ [] 48000).buffers.length ≠ ([] : List AudioBuffer).length := by
  constructor
  · norm_num [BufferManager.fill_buffer, BUFFER_TARGET]
  · norm_num [BufferManager.fill_buffer, BUFFER_TARGET]

/-- C9 amended: below the backlog target, pushing a zero-length sample
sequence appends an empty chunk like any other push, growing the queue
by one chunk; only at the backlog target is the push a no-op. -/
theorem c9_amended (bm : BufferManager) (r : ℕ)
    (h : bm.buffers.length < BUFFER_TARGET) :
    bm.fill_buffer [] r = ⟨bm.buffers ++ [⟨[], 0, (r : ℚ)⟩]⟩ ∧
    (bm.fill_buffer [] r).buffers.length = bm.buffers.length + 1 := by
  have h2 : ¬ BUFFER_TARGET ≤ bm.buffers.length := not_le.mpr h
  constructor
  · unfold BufferManager.fill_buffer
    rw [if_neg h2]
  · unfold BufferManager.fill_buffer
    rw [if_neg h2]
    simp

/-- C9 witness: the amended statement evaluated on the empty queue. -/
theorem c9_witness :
    BufferManager.fill_buffer ⟨[]⟩ [] 7 = ⟨[] ++ [⟨[], 0, (7 : ℚ)⟩]⟩ ∧
    (BufferManager.fill_buffer ⟨[]⟩ [] 7).buffers.length = ([] : List AudioBuffer).length + 1 :=
  c9_amended ⟨[]⟩ 7 (by norm_num [BUFFER_TARGET])

/-- After any accepted submission the running extrema bracket the
submitted value (or come from a rescan of a nonempty history), so
min ≤ max holds in the post state regardless of the previous state. -/
theorem submit_new_accept_min_le_max (s : SlidingWindow) (v : ℚ) (hv : ¬ v < 1 / 10)
    (s2 : SlidingWindow) (mn mx : ℚ)
    (h : s.submit_new v = some (s2, mn, mx)) : s2.min ≤ s2.max := by
  simp only [SlidingWindow.submit_new, if_neg hv] at h
  split at h
  · split at h
    · exact absurd h (by simp)
    · rename_i a rest heq
      simp only [Option.some.injEq, Prod.mk.injEq] at h
      obtain ⟨rfl, -, -⟩ := h
      exact le_trans (foldl_min_le_init rest a) (init_le_foldl_max rest a)
  · simp only [Option.some.injEq, Prod.mk.injEq] at h
    obtain ⟨rfl, -, -⟩ := h
    by_cases h1 : s.max < v <;> by_cases h2 : v < s.min <;>
      simp only [if_pos, if_neg, h1, h2, if_true, if_false] <;> push_neg at h1 h2 <;>
      first
        | exact le_refl v
        | linarith

/-- Any submit_new call preserves min ≤ max. -/
theorem submit_new_mono (s : SlidingWindow) (v : ℚ) (s2 : SlidingWindow) (mn mx : ℚ)
    (h : s.submit_new v = some (s2, mn, mx)) (hmm : s.min ≤ s.max) :
    s2.min ≤ s2.max := by
  by_cases hv : v < 1 / 10
  · unfold SlidingWindow.submit_new at h
    rw [if_pos hv] at h
    simp only [Option.some.injEq, Prod.mk.injEq] at h
    obtain ⟨rfl, -, -⟩ := h
    exact hmm
  · exact submit_new_accept_min_le_max s v hv s2 mn mx h

/-- Through any panic-free call sequence, min ≤ max holds at the end
as soon as it held at the start or some call in the sequence was
accepted. -/
theorem runWindow_min_le_max : ∀ (vs : List ℚ) (s s2 : SlidingWindow),
    runWindow s vs = some s2 →
    ((∃ v ∈ vs, ¬ v < 1 / 10) ∨ s.min ≤ s.max) → s2.min ≤ s2.max := by
  intro vs
  induction vs with
  | nil =>
    intro s s2 h hc
    simp only [runWindow, Option.some.injEq] at h
    subst h
    rcases hc with ⟨v, hv, -⟩ | hc
    · exact absurd hv (by simp)
    · exact hc
  | cons v vs ih =>
    intro s s2 h hc
    simp only [runWindow] at h
    cases hsub : s.submit_new v with
    | none => rw [hsub] at h; exact absurd h (by simp)
    | some r =>
      rw [hsub] at h
      simp only [Option.some_bind] at h
      obtain ⟨s1, mn, mx⟩ := r
      rcases hc with ⟨w, hw, hwge⟩ | hle
      · rcases List.mem_cons.mp hw with rfl | hwvs
        · exact ih s1 s2 h (Or.inr (submit_new_accept_min_le_max s w hwge s1 mn mx hsub))
        · exact ih s1 s2 h (Or.inl ⟨w, hwvs, hwge⟩)
      · exact ih s1 s2 h (Or.inr (submit_new_mono s v s1 mn mx hsub hle))

/-- C3 amended: starting from the initial sentinel state, min ≤ max
holds after every call as soon as at least one call of the sequence
was an accepted submission (value at or above the 0.1 noise floor);
a sequence of only rejected calls keeps the sentinel min = 100 >
max = 0. -/
theorem c3_amended (L : ℕ) (vs : List ℚ) (s2 : SlidingWindow)
    (h : runWindow (SlidingWindow.new L) vs = some s2)
    (hacc : ∃ v ∈ vs, ¬ v < 1 / 10) : s2.min ≤ s2.max :=
  runWindow_min_le_max vs (SlidingWindow.new L) s2 h (Or.inl hacc)

/-- C3 witness: one accepted submission of 1/2 into a fresh window. -/
theorem c3_witness :
    (⟨[1 / 2], 1 / 2, 1 / 2, 1, 64⟩ : SlidingWindow).min ≤
    (⟨[1 / 2], 1 / 2, 1 / 2, 1, 64⟩ : SlidingWindow).max :=
  c3_amended 64 [1 / 2] ⟨[1 / 2], 1 / 2, 1 / 2, 1, 64⟩
    (by norm_num [runWindow, SlidingWindow.submit_new, SlidingWindow.new])
    ⟨1 / 2, List.mem_singleton_self _, by norm_num⟩

/-- C6 amended: the rescan fires on the (L+1)-th accepted update since
the last rescan — when the counter exceeds the capacity — not after
every L updates; at that point the counter is reset to 0 and min and
max are recomputed as the exact extrema of the retained history (whose
length is still L, the push having been undone by the pop). -/
theorem c6_amended (s : SlidingWindow) (v : ℚ)
    (h1 : s.updates = s.limit) (h2 : ¬ v < 1 / 10) (h3 : 1 ≤ s.limit)
    (h4 : s.recorded_intensites.length = s.limit) :
    (s.submit_new v).isSome = true ∧
    ∀ s2 mn mx, s.submit_new v = some (s2, mn, mx) →
      s2.updates = 0 ∧ s2.recorded_intensites.length = s.limit ∧
      s2.recorded_intensites.max? = some s2.max ∧
      s2.recorded_intensites.min? = some s2.min := by
  have hlen : s.limit < (s.recorded_intensites ++ [v]).length := by
    simp [h4]
  have hkept : (if s.limit < (s.recorded_intensites ++ [v]).length
      then (s.recorded_intensites ++ [v]).dropLast
      else (s.recorded_intensites ++ [v])) = s.recorded_intensites := by
    rw [if_pos hlen]
    simp
  have hne : s.recorded_intensites ≠ [] := by
    intro he
    rw [he] at h4
    simp at h4
    omega
  obtain ⟨a, rest, hrec⟩ := List.exists_cons_of_ne_nil hne
  have hcond : s.limit < s.updates + 1 := by omega
  have key : s.submit_new v = some (⟨a :: rest, List.foldl Min.min a rest,
      List.foldl Max.max a rest, 0, s.limit⟩,
      List.foldl Min.min a rest, List.foldl Max.max a rest) := by
    simp only [SlidingWindow.submit_new, if_neg h2]
    rw [if_pos hcond, hkept, hrec]
  refine ⟨by rw [key]; rfl, ?_⟩
  intro s2 mn mx heq
  rw [key] at heq
  simp only [Option.some.injEq, Prod.mk.injEq] at heq
  obtain ⟨rfl, -, -⟩ := heq
  refine ⟨rfl, ?_, rfl, rfl⟩
  rw [← h4, hrec]

/-- C6 witness: capacity 2, counter at 2, history [2, 3]; the accepted
submission 1 triggers the rescan, resetting the counter and setting
(min, max) to the exact extrema (2, 3) of the retained history. -/
theorem c6_witness :
    ((⟨[2, 3], 1, 4, 2, 2⟩ : SlidingWindow).submit_new 1).isSome = true ∧
    ((⟨[2, 3], 2, 3, 0, 2⟩ : SlidingWindow).updates = 0 ∧
     (⟨[2, 3], 2, 3, 0, 2⟩ : SlidingWindow).recorded_intensites.length =
       (⟨[2, 3], 1, 4, 2, 2⟩ : SlidingWindow).limit ∧
     (⟨[2, 3], 2, 3, 0, 2⟩ : SlidingWindow).recorded_intensites.max? =
       some (⟨[2, 3], 2, 3, 0, 2⟩ : SlidingWindow).max ∧
     (⟨[2, 3], 2, 3, 0, 2⟩ : SlidingWindow).recorded_intensites.min? =
       some (⟨[2, 3], 2, 3, 0, 2⟩ : SlidingWindow).min) := by
  have h := c6_amended ⟨[2, 3], 1, 4, 2, 2⟩ 1 (by norm_num) (by norm_num)
    (by norm_num) (by norm_num)
  exact ⟨h.1, h.2 ⟨[2, 3], 2, 3, 0, 2⟩ 2 3 (by norm_num [SlidingWindow.submit_new])⟩

/-- C7 amended: the knot list has count entries, starts at 0, and its
entry at index i for 1 ≤ i < count is 1 - 1/base^(i-1) (the generator
runs from exponent 0, so the knot at index 1 duplicates 0). -/
theorem c7_amended (base : ℚ) (count : ℕ) (h : 2 ≤ count) :
    (power_range base count).length = count ∧
    (power_range base count).getD 0 0 = 0 ∧
    ∀ i, 1 ≤ i → i < count →
      (power_range base count).getD i 0 = 1 - 1 / base ^ (i - 1) := by
  refine ⟨?_, rfl, ?_⟩
  · simp only [power_range, List.length_cons, List.length_map, List.length_range]
    omega
  · intro i h1 h2
    obtain ⟨j, rfl⟩ : ∃ j, i = j + 1 := ⟨i - 1, by omega⟩
    have hj : j < count - 1 := by omega
    simp [power_range, List.getD_cons_succ, List.getD_eq_getElem?_getD,
      List.getElem?_map, List.getElem?_range hj]

/-- C7 witness: the amended knot description at base 51/50 and
count 3, checked at index 2. -/
theorem c7_witness :
    (power_range (51 / 50) 3).length = 3 ∧
    (power_range (51 / 50) 3).getD 0 0 = 0 ∧
    (power_range (51 / 50) 3).getD 2 0 = 1 - 1 / (51 / 50 : ℚ) ^ (2 - 1) := by
  have h := c7_amended (51 / 50) 3 (by norm_num)
  exact ⟨h.1, h.2.1, h.2.2 2 (by norm_num) (by norm_num)⟩

/-- A read from a chunk with a positive rate never panics: the elapsed
seconds value handed to Duration::from_secs_f32 is finite and
non-negative. -/
theorem read_some_of_pos (b : AudioBuffer) (d : ℚ) (hb : 0 < b.rate) :
    ∃ sl e b2, b.read d = some (sl, e, b2) ∧ b2.rate = b.rate := by
  simp only [AudioBuffer.read]
  rw [if_neg]
  · exact ⟨_, _, _, rfl, rfl⟩
  · push_neg
    refine ⟨hb.ne', ?_⟩
    positivity

/-- The extraction loop never panics when every queued chunk has a
positive rate, and the chunks it leaves in the queue all keep their
positive rates. -/
theorem takeNextGo_rates (i : ℚ) :
    ∀ (bufs : List AudioBuffer) (rem : ℚ) (vals : List ℚ) (rate : Flt),
    (∀ b ∈ bufs, 0 < b.rate) →
    ∃ v r rem2 bs, takeNextGo i bufs rem vals rate = some (v, r, rem2, bs) ∧
      ∀ b ∈ bs, 0 < b.rate := by
  intro bufs
  induction bufs with
  | nil =>
    intro rem vals rate _
    exact ⟨vals, rate, rem, [], rfl, by simp⟩
  | cons b rest ih =>
    intro rem vals rate h
    have hb : 0 < b.rate := h b (List.mem_cons_self b rest)
    obtain ⟨sl, e, b2, hread, hrate⟩ := read_some_of_pos b rem hb
    simp only [takeNextGo, hread]
    by_cases hrem : max (rem - e) 0 < 1 / 1000
    · rw [if_pos hrem]
      refine ⟨_, _, _, b2 :: rest, rfl, ?_⟩
      intro x hx
      rcases List.mem_cons.mp hx with rfl | hx
      · rw [hrate]; exact hb
      · exact h x (List.mem_cons_of_mem b hx)
    · rw [if_neg hrem]
      exact ih _ _ _ (fun x hx => h x (List.mem_cons_of_mem b hx))

/-- The extraction loop never lengthens the queue. -/
theorem takeNextGo_length (i : ℚ) :
    ∀ (bufs : List AudioBuffer) (rem : ℚ) (vals : List ℚ) (rate : Flt)
      (v : List ℚ) (r : Flt) (rem2 : ℚ) (bs : List AudioBuffer),
    takeNextGo i bufs rem vals rate = some (v, r, rem2, bs) →
    bs.length ≤ bufs.length := by
  intro bufs
  induction bufs with
  | nil =>
    intro rem vals rate v r rem2 bs h
    simp only [takeNextGo, Option.some.injEq, Prod.mk.injEq] at h
    obtain ⟨-, -, -, rfl⟩ := h
    exact le_refl 0
  | cons b rest ih =>
    intro rem vals rate v r rem2 bs h
    cases hread : b.read rem with
    | none => rw [takeNextGo, hread] at h; exact absurd h (by simp)
    | some t =>
      obtain ⟨sl, e, b2⟩ := t
      simp only [takeNextGo, hread] at h
      split at h
      · simp only [Option.some.injEq, Prod.mk.injEq] at h
        obtain ⟨-, -, -, rfl⟩ := h
        simp
      · exact le_trans (ih _ _ _ _ _ _ _ h) (by simp)

/-- take_next never panics when every queued chunk has a positive
rate, and the queue it leaves keeps only positive-rate chunks. -/
theorem take_next_some_of_rates (bm : BufferManager) (d : ℚ)
    (h : ∀ b ∈ bm.buffers, 0 < b.rate) :
    ∃ sl bm2, bm.take_next d = some (sl, bm2) ∧ ∀ b ∈ bm2.buffers, 0 < b.rate := by
  obtain ⟨v, r, rem2, bs, hgo, hbs⟩ := takeNextGo_rates d bm.buffers d [] (Flt.fin 0) h
  refine ⟨⟨v, fdiv r (fdiv (Flt.fin (d - rem2)) (Flt.fin d))⟩, ⟨bs⟩, ?_, hbs⟩
  simp only [BufferManager.take_next, hgo]

/-- take_next never lengthens the queue. -/
theorem take_next_length (bm : BufferManager) (d : ℚ) (sl : BufferSlice)
    (bm2 : BufferManager) (h : bm.take_next d = some (sl, bm2)) :
    bm2.buffers.length ≤ bm.buffers.length := by
  unfold BufferManager.take_next at h
  cases hgo : takeNextGo d bm.buffers d [] (Flt.fin 0) with
  | none => rw [hgo] at h; exact absurd h (by simp)
  | some t =>
    obtain ⟨v, r, rem2, bs⟩ := t
    rw [hgo] at h
    simp only [Option.some.injEq, Prod.mk.injEq] at h
    obtain ⟨-, h2⟩ := h
    rw [← h2]
    exact takeNextGo_length d bm.buffers d [] (Flt.fin 0) v r rem2 bs hgo
/-- The second component of a branch pair is fixed across the two
branches. -/
theorem snd_of_if_some {α β : Type} (c : Prop) [Decidable c] (b2 : β) (x y : α)
    (r : α × β) (h : (if c then some (x, b2) else some (y, b2)) = some r) :
    r.2 = b2 := by
  split at h <;> · injection h with h2; rw [← h2]

/-- The same with a leading panic branch: a present result still
carries the fixed manager. -/
theorem snd_of_if3_some {α β : Type} (c1 c2 : Prop) [Decidable c1] [Decidable c2]
    (b2 : β) (x y : α) (r : α × β)
    (h : (if c1 then none else if c2 then some (x, b2) else some (y, b2)) = some r) :
    r.2 = b2 := by
  split at h
  · exact absurd h (by simp)
  · exact snd_of_if_some c2 b2 x y r h

/-- When fft_interval succeeds (no panic) its manager component is the
one take_next produced. -/
theorem take_next_of_fft_interval (bm : BufferManager) (d : ℚ) (n : ℕ)
    (r : Option (List ℝ) × BufferManager) (h : bm.fft_interval d n = some r) :
    ∃ sl, bm.take_next d = some (sl, r.2) := by
  unfold BufferManager.fft_interval at h
  split at h
  · exact absurd h (by simp)
  · rename_i slice bm2 heq
    split at h
    · injection h with h2
      rw [← h2]
      exact ⟨slice, heq⟩
    · have h2 := snd_of_if3_some _ _ bm2 _ _ r h
      rw [h2]
      exact ⟨slice, heq⟩

/-- submit_new never panics when the capacity is nonzero, and the
capacity never changes. -/
theorem submit_new_some (s : SlidingWindow) (v : ℚ) (hL : 1 ≤ s.limit) :
    ∃ s2 mn mx, s.submit_new v = some (s2, mn, mx) ∧ s2.limit = s.limit := by
  by_cases hv : v < 1 / 10
  · refine ⟨s, s.min, s.max, ?_, rfl⟩
    unfold SlidingWindow.submit_new
    rw [if_pos hv]
  · simp only [SlidingWindow.submit_new, if_neg hv]
    by_cases hr : s.limit < s.updates + 1
    · rw [if_pos hr]
      have hne : (if s.limit < (s.recorded_intensites ++ [v]).length
          then (s.recorded_intensites ++ [v]).dropLast
          else (s.recorded_intensites ++ [v])) ≠ [] := by
        split
        · rename_i hl
          simp only [List.length_append, List.length_singleton] at hl
          have hpos : 0 < s.recorded_intensites.length := by omega
          simp only [List.dropLast_concat]
          exact List.ne_nil_of_length_pos hpos
        · simp
      obtain ⟨a, rest, hk⟩ := List.exists_cons_of_ne_nil hne
      rw [hk]
      exact ⟨_, _, _, rfl, rfl⟩
    · rw [if_neg hr]
      exact ⟨_, _, _, rfl, rfl⟩


/-- One call never pushes the queue beyond the backlog target. -/
theorem stepOp_length (s : SysState) (op : SysOp) (s2 : SysState)
    (h : stepOp s op = some s2) (hlen : s.bm.buffers.length ≤ BUFFER_TARGET) :
    s2.bm.buffers.length ≤ BUFFER_TARGET := by
  cases op with
  | fill buf r =>
    simp only [stepOp, Option.some.injEq] at h
    subst h
    show (s.bm.fill_buffer buf r).buffers.length ≤ BUFFER_TARGET
    unfold BufferManager.fill_buffer
    split
    · exact hlen
    · rename_i hge
      have hlt : s.bm.buffers.length < BUFFER_TARGET := lt_of_not_le hge
      simp only [List.length_append, List.length_singleton]
      omega
  | take d =>
    simp only [stepOp] at h
    cases htn : s.bm.take_next d with
    | none => rw [htn] at h; exact absurd h (by simp)
    | some p =>
      rw [htn] at h
      simp only [Option.map_some', Option.some.injEq] at h
      subst h
      exact le_trans (take_next_length s.bm d p.1 p.2 htn) hlen
  | fft d n =>
    simp only [stepOp] at h
    cases hf : s.bm.fft_interval d n with
    | none => rw [hf] at h; exact absurd h (by simp)
    | some p =>
      rw [hf] at h
      simp only [Option.map_some', Option.some.injEq] at h
      subst h
      obtain ⟨sl, htn⟩ := take_next_of_fft_interval s.bm d n p hf
      exact le_trans (take_next_length s.bm d sl p.2 htn) hlen
  | submit v =>
    simp only [stepOp] at h
    cases hsub : s.window.submit_new v with
    | none => rw [hsub] at h; exact absurd h (by simp)
    | some p =>
      rw [hsub] at h
      simp only [Option.map_some', Option.some.injEq] at h
      subst h
      exact hlen

/-- The backlog bound is preserved along every panic-free call
sequence. -/
theorem runOps_length : ∀ (ops : List SysOp) (s s2 : SysState),
    runOps s ops = some s2 → s.bm.buffers.length ≤ BUFFER_TARGET →
    s2.bm.buffers.length ≤ BUFFER_TARGET := by
  intro ops
  induction ops with
  | nil =>
    intro s s2 h hlen
    simp only [runOps, Option.some.injEq] at h
    subst h
    exact hlen
  | cons op ops ih =>
    intro s s2 h hlen
    simp only [runOps] at h
    cases hstep : stepOp s op with
    | none => rw [hstep] at h; exact absurd h (by simp)
    | some s1 =>
      rw [hstep] at h
      simp only [Option.some_bind] at h
      exact ih s1 s2 h (stepOp_length s op s1 hstep hlen)

/-- C5: every state reachable from the empty initial state keeps at
most BUFFER_TARGET = 3 chunks queued, and a fill_buffer call on a
queue already at (or above) the target returns the manager unchanged —
same length, same chunks, same read positions. -/
theorem c5_invariant :
    (∀ (L : ℕ) (ops : List SysOp) (s2 : SysState),
      runOps ⟨⟨[]⟩, SlidingWindow.new L⟩ ops = some s2 →
      s2.bm.buffers.length ≤ BUFFER_TARGET) ∧
    (∀ (bm : BufferManager) (buf : List ℚ) (r : ℕ),
      BUFFER_TARGET ≤ bm.buffers.length → bm.fill_buffer buf r = bm) := by
  constructor
  · intro L ops s2 h
    exact runOps_length ops ⟨⟨[]⟩, SlidingWindow.new L⟩ s2 h (by simp [BUFFER_TARGET])
  · intro bm buf r h
    unfold BufferManager.fill_buffer
    rw [if_pos h]

/-- C5 witness: a one-push run stays within the bound, and a push on a
full three-chunk queue is the identity. -/
theorem c5_witness :
    (⟨⟨[⟨[1, 2], 0, 44100⟩]⟩, SlidingWindow.new 5⟩ : SysState).bm.buffers.length ≤ BUFFER_TARGET ∧
    BufferManager.fill_buffer ⟨[⟨[1], 0, 1⟩, ⟨[2], 0, 2⟩, ⟨[3], 0, 3⟩]⟩ [9] 7 =
      ⟨[⟨[1], 0, 1⟩, ⟨[2], 0, 2⟩, ⟨[3], 0, 3⟩]⟩ :=
  ⟨c5_invariant.1 5 [SysOp.fill [1, 2] 44100] ⟨⟨[⟨[1, 2], 0, 44100⟩]⟩, SlidingWindow.new 5⟩
      (by norm_num [runOps, stepOp, BufferManager.fill_buffer, BUFFER_TARGET]),
    c5_invariant.2 ⟨[⟨[1], 0, 1⟩, ⟨[2], 0, 2⟩, ⟨[3], 0, 3⟩]⟩ [9] 7 (by norm_num [BUFFER_TARGET])⟩

/-- Exactly representable integers round to themselves on the f32
grid. -/
theorem f32round_nat (k : ℕ) (h1 : 1 ≤ k) (h2 : k ≤ 2 ^ 23) : f32round (k : ℝ) = k := by
  have hk1 : (1 : ℝ) ≤ (k : ℝ) := by exact_mod_cast h1
  have hk0 : ((k : ℝ)) ≠ 0 := by linarith
  unfold f32round
  rw [if_neg hk0]
  have habs : |(k : ℝ)| = (k : ℝ) := abs_of_nonneg (by linarith)
  rw [habs]
  have hlognn : 0 ≤ Real.logb 2 (k : ℝ) := Real.logb_nonneg one_lt_two hk1
  have hlogle : Real.logb 2 (k : ℝ) ≤ 23 := by
    rw [Real.logb_le_iff_le_rpow one_lt_two (by linarith)]
    rw [show ((23 : ℝ)) = ((23 : ℕ) : ℝ) by norm_num, Real.rpow_natCast]
    exact_mod_cast h2
  have he0 : 0 ≤ ⌊Real.logb 2 (k : ℝ)⌋ := Int.floor_nonneg.mpr hlognn
  have he23 : ⌊Real.logb 2 (k : ℝ)⌋ ≤ 23 := by
    have h3 := Int.floor_le_floor hlogle
    simpa using h3
  obtain ⟨j, hj⟩ : ∃ j : ℕ, (23 : ℤ) - ⌊Real.logb 2 (k : ℝ)⌋ = (j : ℤ) :=
    ⟨(23 - ⌊Real.logb 2 (k : ℝ)⌋).toNat, by omega⟩
  have hpow : (2 : ℝ) ^ (⌊Real.logb 2 (k : ℝ)⌋ - 23) = ((2 : ℝ) ^ j)⁻¹ := by
    rw [show ⌊Real.logb 2 (k : ℝ)⌋ - 23 = -((j : ℤ)) by omega]
    rw [zpow_neg, zpow_natCast]
  rw [hpow, div_inv_eq_mul]
  have hnat : (k : ℝ) * 2 ^ j = ((k * 2 ^ j : ℕ) : ℝ) := by push_cast; ring
  rw [hnat, round_natCast]
  have h2j : ((2 : ℝ) ^ j) ≠ 0 := by positivity
  push_cast
  rw [mul_assoc, mul_inv_cancel₀ h2j, mul_one]

/-- Lengths below 2^24 cast to f32 exactly. -/
theorem natCastF32_small (n : ℕ) (h : n < 2 ^ 24) : natCastF32 n = (n : ℚ) := by
  unfold natCastF32
  rcases eq_or_ne n 0 with rfl | h0
  · simp
  · rw [if_neg h0]
    have hlt : Nat.log2 n < 24 := (Nat.log2_lt h0).mpr h
    rw [if_pos (by omega)]

/-- At 8 samples the f32 log2 is exact: floor gives exponent 3. -/
theorem f32log2_8 : (⌊f32round (Real.logb 2 ((natCastF32 8 : ℚ) : ℝ))⌋).toNat = 3 := by
  rw [natCastF32_small 8 (by norm_num)]
  rw [show ((((8 : ℕ) : ℚ)) : ℝ) = ((2 : ℝ) ^ (3 : ℕ)) by norm_num]
  have hlog : Real.logb 2 ((2 : ℝ) ^ (3 : ℕ)) = 3 := by
    rw [Real.logb_pow]
    rw [Real.logb_self_eq_one one_lt_two]
    norm_num
  rw [hlog]
  rw [show (3 : ℝ) = ((3 : ℕ) : ℝ) by norm_num]
  rw [f32round_nat 3 (by norm_num) (by norm_num)]
  norm_num
  decide

/-- At 2097151 = 2^21 - 1 samples the f32 log2 rounds up to exactly
21.0: the real log2 lies within half a grid step (the step is 2^-19
for values in [16, 32)) of 21, because 2^(21 - 2^-20) < 2^21 - 1.
So the computed exponent is 21 and the resulting transform size 2^21
exceeds the sample count. -/
theorem f32log2_2097151 :
    (⌊f32round (Real.logb 2 ((natCastF32 2097151 : ℚ) : ℝ))⌋).toNat = 21 := by
  rw [natCastF32_small 2097151 (by norm_num)]
  rw [show ((((2097151 : ℕ) : ℚ)) : ℝ) = (2097151 : ℝ) by norm_num]
  have hub : Real.logb 2 (2097151 : ℝ) < 21 := by
    rw [Real.logb_lt_iff_lt_rpow one_lt_two (by norm_num)]
    rw [show ((21 : ℝ)) = ((21 : ℕ) : ℝ) by norm_num, Real.rpow_natCast]
    norm_num
  have hlb : 21 - (1 / 1048576 : ℝ) < Real.logb 2 (2097151 : ℝ) := by
    rw [Real.lt_logb_iff_rpow_lt one_lt_two (by norm_num)]
    rw [Real.rpow_sub (by norm_num : (0:ℝ) < 2)]
    rw [show ((2:ℝ) ^ (21 : ℝ)) = 2097152 from by
      rw [show ((21 : ℝ)) = ((21 : ℕ) : ℝ) by norm_num, Real.rpow_natCast]; norm_num]
    have hpos : (0 : ℝ) < (2 : ℝ) ^ ((1 : ℝ) / 1048576) := Real.rpow_pos_of_pos (by norm_num) _
    rw [div_lt_iff₀ hpos]
    have hexp : (2 : ℝ) ^ ((1 : ℝ) / 1048576) = Real.exp (Real.log 2 * (1 / 1048576)) :=
      Real.rpow_def_of_pos (by norm_num) _
    have hge : 1 + Real.log 2 * (1 / 1048576) ≤ (2 : ℝ) ^ ((1 : ℝ) / 1048576) := by
      rw [hexp]
      have h4 := Real.add_one_le_exp (Real.log 2 * (1 / 1048576))
      linarith
    have hlog2 : (0.6931471803 : ℝ) < Real.log 2 := Real.log_two_gt_d9
    nlinarith
  have hxpos : (0 : ℝ) < Real.logb 2 (2097151 : ℝ) := by
    have h5 : (20 : ℝ) < 21 - 1 / 1048576 := by norm_num
    linarith
  unfold f32round
  rw [if_neg (ne_of_gt hxpos)]
  rw [abs_of_pos hxpos]
  have he : ⌊Real.logb 2 (Real.logb 2 (2097151 : ℝ))⌋ = 4 := by
    rw [Int.floor_eq_iff]
    constructor
    · rw [show (((4:ℤ)):ℝ) = ((4:ℝ)) by norm_num]
      rw [Real.le_logb_iff_rpow_le one_lt_two hxpos]
      rw [show ((4 : ℝ)) = ((4 : ℕ) : ℝ) by norm_num, Real.rpow_natCast]
      have h6 : (16 : ℝ) ≤ 21 - 1 / 1048576 := by norm_num
      linarith
    · rw [show (((4:ℤ)):ℝ) + 1 = ((5:ℝ)) by norm_num]
      rw [Real.logb_lt_iff_lt_rpow one_lt_two hxpos]
      rw [show ((5 : ℝ)) = ((5 : ℕ) : ℝ) by norm_num, Real.rpow_natCast]
      have h7 : (32 : ℝ) = 2 ^ (5 : ℕ) := by norm_num
      linarith [hub]
  rw [he]
  have hg : ((2 : ℝ)) ^ ((4 : ℤ) - 23) = ((2 : ℝ) ^ (19 : ℕ))⁻¹ := by
    rw [show ((4 : ℤ) - 23) = -((19 : ℕ) : ℤ) by norm_num]
    rw [zpow_neg, zpow_natCast]
  rw [hg, div_inv_eq_mul]
  have h519 : ((2 : ℝ) ^ (19 : ℕ)) = 524288 := by norm_num
  have hround : round (Real.logb 2 (2097151 : ℝ) * ((2 : ℝ) ^ (19 : ℕ))) = 11010048 := by
    rw [round_eq, h519]
    rw [Int.floor_eq_iff]
    constructor
    · rw [show (((11010048:ℤ)):ℝ) = ((11010048:ℝ)) by norm_num]
      nlinarith [hlb]
    · rw [show (((11010048:ℤ)):ℝ) + 1 = ((11010049:ℝ)) by norm_num]
      nlinarith [hub]
  rw [hround, h519]
  rw [show (((11010048 : ℤ)) : ℝ) * ((524288 : ℝ))⁻¹ = 21 by norm_num]
  norm_num
  decide

/-- Evaluation of take_next on the concrete one-chunk queue bm8: all
eight samples are consumed in one read and the blended rate is exactly
the chunk rate. -/
theorem tn_bm8 : BufferManager.take_next bm8 (1 / 100) =
    some (⟨List.replicate 8 0, Flt.fin 48000⟩, ⟨[]⟩) := by
  unfold bm8 BufferManager.take_next
  norm_num [takeNextGo, AudioBuffer.read, fadd, fmul, fdiv]

/-- Evaluation of fft_interval on bm8 with zero output buckets: the
data and range checks pass and the present, empty output is returned. -/
theorem fft_bm8_0 : BufferManager.fft_interval bm8 (1 / 100) 0 = some (some [], ⟨[]⟩) := by
  unfold BufferManager.fft_interval
  rw [tn_bm8]
  norm_num [f32log2_8, fltToUsize, fdiv, fmul, USIZE_MAX, CEILING_FREQ, FLOOR_FREQ,
    samplePoints, Int.toNat_ofNat]

/-- C8 counterexample: on a state with enough samples and a 2-bin
range, fft_interval with bucketCount 0 returns a present empty vector,
not the absent result the claim requires. -/
theorem c8_cex :
    BufferManager.fft_interval bm8 (1 / 100) 0 = some (some [], ⟨[]⟩) ∧
    (some ([] : List ℝ)) ≠ none := by
  exact ⟨fft_bm8_0, by simp⟩

/-- Both branches after a successful range check return a present pair
with the fixed manager; the payload is either absent or the mapped
output. -/
theorem c8_branches {α β : Type} (c : Prop) [Decidable c] (b2 : β) (y : α)
    (r : Option α × β)
    (h : (if c then some ((none : Option α), b2) else some (some y, b2)) = some r) :
    r.1 = none ∨ r.1 = some y := by
  split at h <;> · injection h with h2; rw [← h2]; simp

/-- The same with a leading panic branch: a present result is either
the absent payload or the mapped output. -/
theorem c8_branches3 {α β : Type} (c1 c2 : Prop) [Decidable c1] [Decidable c2]
    (b2 : β) (y : α) (r : Option α × β)
    (h : (if c1 then none
      else if c2 then some ((none : Option α), b2) else some (some y, b2)) = some r) :
    r.1 = none ∨ r.1 = some y := by
  split at h
  · exact absurd h (by simp)
  · exact c8_branches c2 b2 y r h

/-- C8 amended: with bucketCount 0, fft_interval returns the absent
result exactly when the data or bin-range check fails; when enough
data and bins exist the result is present but empty (its length is the
requested 0), never a panic. -/
theorem c8_amended (bm : BufferManager) (d : ℚ) (r : Option (List ℝ) × BufferManager)
    (h : bm.fft_interval d 0 = some r) : r.1 = none ∨ r.1 = some [] := by
  unfold BufferManager.fft_interval at h
  split at h
  · exact absurd h (by simp)
  · rename_i slice bm2 heq
    split at h
    · injection h with h2
      rw [← h2]
      exact Or.inl rfl
    · rcases c8_branches3 _ _ bm2 _ r h with h3 | h3
      · exact Or.inl h3
      · right
        rw [h3]
        simp [samplePoints]

/-- C8 witness: the amended statement at the concrete present result
produced on bm8. -/
theorem c8_witness :
    ((some ([] : List ℝ), (⟨[]⟩ : BufferManager))).1 = none ∨
    ((some ([] : List ℝ), (⟨[]⟩ : BufferManager))).1 = some [] :=
  c8_amended bm8 (1 / 100) (some [], ⟨[]⟩) fft_bm8_0

/-- The per-sample output map is non-negative whenever the scale is:
the magnitude is a square root, the compression log10(1 + value) is
applied to an argument at least 1, and the gain is positive. -/
theorem intensity_nonneg (c : ℝ) (z : ℂ) (hc : 0 ≤ c) : 0 ≤ intensity c z := by
  unfold intensity
  have h1 : (0 : ℝ) ≤ Real.sqrt (z.re * z.re + z.im * z.im) := Real.sqrt_nonneg _
  have h2 : (0 : ℝ) ≤ Real.sqrt (z.re * z.re + z.im * z.im) / c := div_nonneg h1 hc
  have h3 : (0 : ℝ) ≤ Real.logb 10 (1 + Real.sqrt (z.re * z.re + z.im * z.im) / c) :=
    Real.logb_nonneg (by norm_num) (by linarith)
  have h4 : (0 : ℝ) ≤ SCALE := by norm_num [SCALE]
  exact mul_nonneg h3 h4

/-- C10: every element of a present fft_interval output is
non-negative: each is log10(1 + magnitude/scale) * 8 with magnitude a
square root and scale = sqrt(size) ≥ 0. -/
theorem c10_nonneg (bm : BufferManager) (d : ℚ) (n : ℕ)
    (r : Option (List ℝ) × BufferManager) (out : List ℝ) (x : ℝ)
    (h : bm.fft_interval d n = some r) (hout : r.1 = some out) (hx : x ∈ out) :
    0 ≤ x := by
  unfold BufferManager.fft_interval at h
  split at h
  · exact absurd h (by simp)
  · rename_i slice bm2 heq
    split at h
    · injection h with h2
      rw [← h2] at hout
      exact absurd hout (by simp)
    · rcases c8_branches3 _ _ bm2 _ r h with h3 | h3
      · rw [h3] at hout
        exact absurd hout (by simp)
      · rw [h3] at hout
        injection hout with h4
        subst h4
        obtain ⟨t, -, hfx⟩ := List.mem_map.mp hx
        rw [← hfx]
        exact intensity_nonneg _ _ (Real.sqrt_nonneg _)

/-- Evaluation of fft_interval on bm8 with one output bucket: the
present result holds exactly the explicit intensity value c10val. -/
theorem fft_bm8_1 : BufferManager.fft_interval bm8 (1 / 100) 1 = some (some [c10val], ⟨[]⟩) := by
  unfold BufferManager.fft_interval
  rw [tn_bm8]
  norm_num [f32log2_8, fltToUsize, fdiv, fmul, USIZE_MAX, CEILING_FREQ, FLOOR_FREQ,
    samplePoints, c10val, List.range_succ,
    show Int.toNat 2 = 2 from by simp]

/-- C10 witness: the single intensity produced on bm8 with one bucket
is non-negative. -/
theorem c10_witness : 0 ≤ c10val :=
  c10_nonneg bm8 (1 / 100) 1 (some [c10val], ⟨[]⟩) [c10val] c10val fft_bm8_1 rfl
    (List.mem_singleton_self c10val)

/-- Evaluation of take_next on a queue holding one chunk of
2097151 = 2^21 - 1 samples at 48 kHz, with a 60 s request: the whole
chunk is consumed in one read (stated over any sample list of that
length so that no proof step ever has to materialize the list). -/
theorem tn_big (l : List ℚ) (hl : l.length = 2097151) :
    BufferManager.take_next ⟨[⟨l, 0, 48000⟩]⟩ 60 = some (⟨l, Flt.fin 48000⟩, ⟨[]⟩) := by
  unfold BufferManager.take_next
  norm_num [takeNextGo, AudioBuffer.read, fadd, fmul, fdiv, hl, List.take_of_length_le]

/-- On a 2097151-sample slice the computed transform size is
2^21 = 2097152, one more than the sample count, and the source slice
values[0..size] panics: fft_interval hits the out-of-range index. -/
theorem c4_fft_big (l : List ℚ) (hl : l.length = 2097151) :
    BufferManager.fft_interval ⟨[⟨l, 0, 48000⟩]⟩ 60 8 = none := by
  unfold BufferManager.fft_interval
  rw [tn_big l hl]
  norm_num [hl, f32log2_2097151]

/-- The two-call run on any 2097151-sample chunk panics at the
spectrum call. -/
theorem c4_run_big (l : List ℚ) (hl : l.length = 2097151) :
    runOps ⟨⟨[]⟩, SlidingWindow.new 64⟩ [SysOp.fill l 48000, SysOp.fft 60 8] = none := by
  have h1 : stepOp ⟨⟨[]⟩, SlidingWindow.new 64⟩ (SysOp.fill l 48000)
      = some ⟨⟨[⟨l, 0, 48000⟩]⟩, SlidingWindow.new 64⟩ := by
    norm_num [stepOp, BufferManager.fill_buffer, BUFFER_TARGET]
  have h2 : stepOp ⟨⟨[⟨l, 0, 48000⟩]⟩, SlidingWindow.new 64⟩
      (SysOp.fft 60 8) = none := by
    simp only [stepOp, c4_fft_big l hl, Option.map_none']
  simp only [runOps, h1, Option.some_bind, h2, Option.none_bind]

/-- C4: the failing input evaluated through the embedding. Both calls
carry valid (non-negative, non-zero) configuration, yet the run
panics: pushing a single chunk of 2097151 = 2^21 - 1 samples at
48 kHz and then asking for a spectrum makes f32::log2 round the
length up to 21.0, the transform size becomes 2^21 > 2097151, and the
slice values[0..size] is out of range. -/
theorem c4_code_bug :
    SysOp.valid (SysOp.fill (List.replicate 2097151 0) 48000) ∧
    SysOp.valid (SysOp.fft 60 8) ∧
    runOps ⟨⟨[]⟩, SlidingWindow.new 64⟩
      [SysOp.fill (List.replicate 2097151 0) 48000, SysOp.fft 60 8] = none := by
  refine ⟨?_, ?_, c4_run_big (List.replicate 2097151 0) (by rw [List.length_replicate])⟩
  · show (0 : ℕ) < 48000
    norm_num
  · show (0 : ℚ) ≤ 60
    norm_num
